import Mathlib

/-!
Verification of the optical-train core of `rayopt` (`rayopt/system.py`).

The `System` class is an ordered, mutable list of optical elements together
with structural algorithms: role accessors (object/aperture/image), in-place
reversal, rescaling, convex-surface resizing, cut-outline extraction and the
paraxial 2x2 transfer-matrix chain.  Below, the class is embedded shallowly:
elements become a Lean structure carrying the attributes and delegated
queries the core touches, each Python method becomes a pure function on a
`System` value, and the claims of the specification are settled as theorems
about those functions.
-/

set_option autoImplicit false

/-- Element variants, distinguished in the source by `isinstance` checks
against the classes of `rayopt.elements`. -/
inductive EKind where
  | obj
  | aperture
  | image
  | surface
  deriving DecidableEq, Repr

/-- The slice of a material object the core reads: only the `solid` flag is
consulted (`resize_convex`, `surfaces_cut`); a tag keeps distinct materials
distinguishable. -/
structure Material where
  solid : Bool
  tag : ℕ
  deriving DecidableEq, Repr

/-- A 2x2 rational matrix, standing in for the `numpy` 2x2 arrays used by the
paraxial chain. -/
structure Mat2 where
  a : ℚ
  b : ℚ
  c : ℚ
  d : ℚ
  deriving DecidableEq, Repr

/-- Matrix product, `np.dot` on 2x2 arrays. -/
def Mat2.mul (m n : Mat2) : Mat2 :=
  ⟨m.a * n.a + m.b * n.c, m.a * n.b + m.b * n.d,
   m.c * n.a + m.d * n.c, m.c * n.b + m.d * n.d⟩

instance : Mul Mat2 := ⟨Mat2.mul⟩

/-- `np.eye(2)`. -/
def Mat2.id : Mat2 := ⟨1, 0, 0, 1⟩

instance : One Mat2 := ⟨Mat2.id⟩

/-- Element-local state that the element's own `reverse()` mutator may act
on (orientation-dependent data and the delegated queries), as opposed to the
`distance`/`material` attributes which the train-level passes manage
themselves. -/
structure Core where
  curvature : ℚ
  radius : ℚ
  /-- Delegated `refractive_index(wavelength)` query. -/
  refr : ℚ → ℚ
  /-- Delegated `paraxial_matrix(n, wavelength) -> (n', M)` query. -/
  pmat : ℚ → ℚ → ℚ × Mat2
  /-- Delegated `transform_from(surface_cut(axis, points))` composite,
  already projected to the `(x, z)` coordinate pairs the core reads. -/
  cutXZ : ℕ → ℕ → List (ℚ × ℚ)

/-- One element of the train.  `hasMat` models `hasattr(e, "material")`
(markers lack the attribute; a surface carries it, possibly holding `None`,
which is `material = none` here). -/
structure Element where
  kind : EKind
  distance : ℚ
  hasMat : Bool
  material : Option Material
  finite : Bool
  core : Core

def Element.curvature (e : Element) : ℚ := e.core.curvature

def Element.radius (e : Element) : ℚ := e.core.radius

/-- `getattr(e, "material", None)` as used by `surfaces_cut`. -/
def Element.matGet (e : Element) : Option Material :=
  if e.hasMat then e.material else none

/-- `el.material.solid`, evaluated by `resize_convex` and `surfaces_cut`
after the material has been established to be present. -/
def Element.solidB (e : Element) : Bool :=
  match e.material with
  | some m => m.solid
  | none => false

/-- The train: `System(list)` with its non-sequence attributes. -/
structure System where
  elems : List Element
  description : String
  scale : ℚ
  wavelengths : List ℚ

/-- The element list produced by `System.__init__` from an explicitly passed
`elements` argument: `None` is replaced by the default triple, anything else
is taken as given. -/
def systemInitElems (defaultTriple : List Element) (elements : Option (List Element)) :
    List Element :=
  match elements with
  | none => defaultTriple
  | some es => es

/-- Modelled from the spec: the default `Object(finite=False)` marker built
by `System.__init__`; `rayopt.elements` is not among the given sources.  An
infinite-conjugate object marker with no material attribute and trivial
delegated queries. -/
def objDefault : Element :=
  { kind := EKind.obj, distance := 0, hasMat := false, material := none,
    finite := false,
    core := { curvature := 0, radius := 0, refr := fun _ => 1,
              pmat := fun n _ => (n, 1), cutXZ := fun _ _ => [] } }

/-- Modelled from the spec: the default `Aperture()` marker built by
`System.__init__`; `rayopt.elements` is not among the given sources. -/
def apDefault : Element :=
  { kind := EKind.aperture, distance := 0, hasMat := false, material := none,
    finite := true,
    core := { curvature := 0, radius := 0, refr := fun _ => 1,
              pmat := fun n _ => (n, 1), cutXZ := fun _ _ => [] } }

/-- Modelled from the spec: the default `Image()` marker built by
`System.__init__`; `rayopt.elements` is not among the given sources. -/
def imgDefault : Element :=
  { kind := EKind.image, distance := 0, hasMat := false, material := none,
    finite := true,
    core := { curvature := 0, radius := 0, refr := fun _ => 1,
              pmat := fun n _ => (n, 1), cutXZ := fun _ _ => [] } }

/-- The default triple `[Object(finite=False), Aperture(), Image()]` that
`System.__init__` substitutes for an explicit `elements=None`. -/
def defaultTriple : List Element := [objDefault, apDefault, imgDefault]

/-- The element list of a train constructed with the `elements` argument
omitted: Python then binds the declared default `elements=[]`, which is not
`None`, so the `None` check does not fire. -/
def systemInitElemsOmitted : List Element :=
  systemInitElems defaultTriple (some [])

/-! ### Role accessors -/

/-- `System.aperture`: forward scan for the first `Aperture` instance;
falls off the loop (returning `None`) when there is none. -/
def findAp : List Element → Option Element
  | [] => none
  | e :: es => if e.kind = EKind.aperture then some e else findAp es

/-- `System.aperture_index`: `self.index(self.aperture)`.  Python `==` on
elements is identity, so this is the index of the first `Aperture`
instance; `list.index(None)` raises, modelled by `none`. -/
def findApIdx : List Element → Option ℕ
  | [] => none
  | e :: es =>
    if e.kind = EKind.aperture then some 0
    else (findApIdx es).map (· + 1)

def System.aperture (s : System) : Option Element := findAp s.elems

def System.apertureIndex (s : System) : Option ℕ := findApIdx s.elems

/-! ### Paraxial chain -/

/-- A Python slice `l[a:b]` with non-negative bounds. -/
def pySlice (l : List Element) (a b : ℕ) : List Element := (l.take b).drop a

/-- The upper bound `stop or len(self)` used by `paraxial_matrices`:
`None` and the falsy `0` both mean the end of the train. -/
def effStop (s : System) (stop : Option ℕ) : ℕ :=
  match stop with
  | none => s.elems.length
  | some k => if k = 0 then s.elems.length else k

/-- The seed element `self[start - 1]`: Python index `-1` (from `start = 0`)
wraps to the last element; an out-of-range index raises, modelled by
`none`. -/
def seedElem (s : System) (start : ℕ) : Option Element :=
  if start = 0 then s.elems.getLast? else s.elems.get? (start - 1)

/-- The loop body of `paraxial_matrices`: thread the running refractive
index through the elements, collecting each `(n', M)` pair. -/
def chain (l : ℚ) : ℚ → List Element → List (ℚ × Mat2)
  | _, [] => []
  | n, e :: es =>
    let r := e.core.pmat n l
    r :: chain l r.1 es

/-- `System.paraxial_matrices(l, start, stop)`. -/
def System.paraxialMatrices (s : System) (l : ℚ) (start : ℕ) (stop : Option ℕ) :
    Option (List (ℚ × Mat2)) :=
  (seedElem s start).map fun e0 =>
    chain l (e0.core.refr l) (pySlice s.elems start (effStop s stop))

/-- The fold of `paraxial_matrix`: `m = np.dot(mi, m)` starting from the
identity, so later matrices multiply on the left. -/
def prodMat (cs : List (ℚ × Mat2)) : Mat2 :=
  cs.foldl (fun m p => p.2 * m) 1

/-- `System.paraxial_matrix(l, start, stop)`. -/
def System.paraxialMatrix (s : System) (l : ℚ) (start : ℕ) (stop : Option ℕ) :
    Option Mat2 :=
  (s.paraxialMatrices l start stop).map prodMat

/-- The product of two possibly-failing paraxial matrices, left factor
first, as written in the split-product claim. -/
def mulOpt (x y : Option Mat2) : Option Mat2 :=
  x.bind fun mx => y.map fun my => mx * my

/-! ### Claim C4: default construction -/

/-- Claim C4: constructing a train with the `elements` argument omitted
yields the empty list, not the Object/Aperture/Image triple: the declared
default is `[]` and only an explicit `elements=None` is replaced by the
triple.  This theorem evaluates the constructor at the failing input
`System()`. -/
theorem C4_default_init_empty :
    systemInitElemsOmitted = [] ∧ systemInitElems defaultTriple none = defaultTriple :=
  ⟨rfl, rfl⟩

/-! ### Claim C10: stop = 0 is treated as "to the end" -/

/-- Claim C10: `paraxial_matrices` with `stop = 0` behaves exactly like the
omitted (`None`) stop, and the chain runs over all elements of
`[start, N)`, because the bound is computed as `stop or len(self)`. -/
theorem C10_stop_zero_runs_to_end (s : System) (l : ℚ) (start : ℕ) :
    s.paraxialMatrices l start (some 0) = s.paraxialMatrices l start none ∧
    s.paraxialMatrices l start none =
      (seedElem s start).map
        (fun e0 => chain l (e0.core.refr l) (s.elems.drop start)) := by
  constructor
  · rfl
  · simp [System.paraxialMatrices, effStop, pySlice, List.take_length]

/-! ### Claim C8: aperture getter and index -/

/-- Claim C8: the `aperture` getter returns the first Aperture-variant
element in forward scan order, or `none` when absent; `aperture_index`
returns the index of that first Aperture and fails (`none`) when absent. -/
theorem C8_aperture_first_match (s : System) :
    (s.aperture = none ∧ s.apertureIndex = none ∧
      ∀ e ∈ s.elems, e.kind ≠ EKind.aperture) ∨
    (∃ i e, s.apertureIndex = some i ∧ s.aperture = some e ∧
      s.elems.get? i = some e ∧ e.kind = EKind.aperture ∧
      ∀ j, j < i → ∀ e', s.elems.get? j = some e' → e'.kind ≠ EKind.aperture) := by
  have key : ∀ t : List Element,
      (findAp t = none ∧ findApIdx t = none ∧
        ∀ e ∈ t, e.kind ≠ EKind.aperture) ∨
      (∃ i e, findApIdx t = some i ∧ findAp t = some e ∧
        t.get? i = some e ∧ e.kind = EKind.aperture ∧
        ∀ j, j < i → ∀ e', t.get? j = some e' → e'.kind ≠ EKind.aperture) := by
    intro t
    induction t with
    | nil => exact Or.inl ⟨rfl, rfl, by simp⟩
    | cons e es ih =>
      by_cases hk : e.kind = EKind.aperture
      · refine Or.inr ⟨0, e, ?_, ?_, ?_, hk, ?_⟩
        · simp [findApIdx, hk]
        · simp [findAp, hk]
        · rfl
        · intro j hj; omega
      · rcases ih with ⟨h1, h2, h3⟩ | ⟨i, e', h1, h2, h3, h4, h5⟩
        · refine Or.inl ⟨?_, ?_, ?_⟩
          · simp [findAp, hk, h1]
          · simp [findApIdx, hk, h2]
          · intro x hx
            rcases List.mem_cons.mp hx with rfl | hx
            · exact hk
            · exact h3 x hx
        · refine Or.inr ⟨i + 1, e', ?_, ?_, ?_, h4, ?_⟩
          · simp [findApIdx, hk, h1]
          · simp [findAp, hk, h2]
          · simpa using h3
          · intro j hj e'' he''
            match j with
            | 0 =>
              simp only [List.get?] at he''
              cases he''
              exact hk
            | j + 1 =>
              exact h5 j (by omega) e'' (by simpa using he'')
  exact key s.elems

/-! ### Rescale -/

/-- `System.rescale(scale=None)`: the default factor is
`self.scale / 1e-3`; the train's `scale` is divided by the factor and every
element's own `rescale(factor)` mutator is invoked.  The element mutator is
a parameter, matching the delegation in the source. -/
def System.rescaleOp (er : ℚ → Element → Element) (factor : Option ℚ)
    (s : System) : System :=
  let f := factor.getD (s.scale / (1 / 1000))
  { s with scale := s.scale / f, elems := s.elems.map (er f) }

/-- Modelled from the spec: the element-local `rescale(factor)` mutator of
`rayopt.elements` (not among the given sources) scales the length-valued
attributes `distance` and `radius` by the factor and the inverse-length
`curvature` by its reciprocal. -/
def elemRescale (f : ℚ) (e : Element) : Element :=
  { e with distance := e.distance * f,
           core := { e.core with curvature := e.core.curvature / f,
                                 radius := e.core.radius * f } }

/-- Claim C5: for positive factors `a` and `b`, `rescale(a); rescale(b)`
yields the same train state (scale and all element attributes) as the
single call `rescale(a*b)`, given that the element-local rescale mutator is
multiplicative in its factor. -/
theorem C5_rescale_composition (er : ℚ → Element → Element) (a b : ℚ)
    (s : System) (ha : 0 < a) (hb : 0 < b)
    (hmul : ∀ f g e, er g (er f e) = er (f * g) e) :
    ((s.rescaleOp er (some a)).rescaleOp er (some b)) =
      s.rescaleOp er (some (a * b)) := by
  simp only [System.rescaleOp, Option.getD_some, div_div, List.map_map]
  refine congrArg (fun l => System.mk l s.description (s.scale / (a * b)) s.wavelengths) ?_
  apply List.map_congr_left
  intro e _
  exact hmul a b e

/-- The multiplicativity hypothesis of C5 holds for the spec-modelled
element rescale: scaling twice composes the factors. -/
theorem elemRescale_mul (f g : ℚ) (e : Element) :
    elemRescale g (elemRescale f e) = elemRescale (f * g) e := by
  simp only [elemRescale, mul_assoc, div_div]

/-- A small concrete train used to witness hypotheses-bearing theorems. -/
def sampleSys : System :=
  { elems := defaultTriple, description := "", scale := 1 / 1000,
    wavelengths := [1] }

/-- Witness for C5 at the concrete train `sampleSys`, factors `2` and `3`,
and the spec-modelled element rescale. -/
theorem C5_rescale_composition_witness :
    ((sampleSys.rescaleOp elemRescale (some 2)).rescaleOp elemRescale (some 3)) =
      sampleSys.rescaleOp elemRescale (some (2 * 3)) :=
  C5_rescale_composition elemRescale 2 3 sampleSys (by norm_num) (by norm_num)
    elemRescale_mul

/-! ### Role setters -/

/-- `System.object` setter: `assert isinstance(value, Object)` first
(`none` models the raised `AssertionError`); then replace element 0 when
it is already an `Object`, otherwise insert at the head.  (On an empty
train the source raises `IndexError` at `self[0]`; the list is returned
unchanged here and the claims only concern non-empty trains.) -/
def System.setObject (s : System) (v : Element) : Option System :=
  if v.kind = EKind.obj then
    some { s with elems :=
      match s.elems with
      | [] => []
      | e :: es => if e.kind = EKind.obj then v :: es else v :: e :: es }
  else none

/-- `System.image` setter: `assert isinstance(value, Image)` first
(`none` models the raised `AssertionError`); then replace the last element
when it is already an `Image`, otherwise append.  (Empty train: the
source raises at `self[-1]`; unchanged here.) -/
def System.setImage (s : System) (v : Element) : Option System :=
  if v.kind = EKind.image then
    some { s with elems :=
      match s.elems.getLast? with
      | none => s.elems
      | some e =>
        if e.kind = EKind.image then s.elems.dropLast ++ [v]
        else s.elems ++ [v] }
  else none

/-- The setter's leading assertion fails on a wrong-variant value: setting
a non-Object as `object` raises instead of mutating the train. -/
theorem setObject_wrong_variant (s : System) (v : Element)
    (h : v.kind ≠ EKind.obj) : s.setObject v = none := by
  simp [System.setObject, h]

/-- Symmetric assertion failure for the `image` setter. -/
theorem setImage_wrong_variant (s : System) (v : Element)
    (h : v.kind ≠ EKind.image) : s.setImage v = none := by
  simp [System.setImage, h]

/-- Claim C7: on a non-empty train, setting `object` to an Object value
replaces element 0 in place (length unchanged) when element 0 is an Object
variant, and inserts at index 0 (length + 1) otherwise; symmetrically,
setting `image` to an Image value replaces the tail element when it is an
Image variant and appends otherwise.  (The setters' leading asserts pass
because the supplied values are of the right variant.) -/
theorem C7_role_setters (s : System) (vo vi e0 eN : Element)
    (hvo : vo.kind = EKind.obj) (hvi : vi.kind = EKind.image)
    (h0 : s.elems.head? = some e0) (hN : s.elems.getLast? = some eN) :
    ((e0.kind = EKind.obj →
        (s.setObject vo).map (fun t => t.elems) = some (vo :: s.elems.tail) ∧
        (s.setObject vo).map (fun t => t.elems.length) = some s.elems.length) ∧
     (e0.kind ≠ EKind.obj →
        (s.setObject vo).map (fun t => t.elems) = some (vo :: s.elems) ∧
        (s.setObject vo).map (fun t => t.elems.length) = some (s.elems.length + 1))) ∧
    ((eN.kind = EKind.image →
        (s.setImage vi).map (fun t => t.elems) = some (s.elems.dropLast ++ [vi]) ∧
        (s.setImage vi).map (fun t => t.elems.length) = some s.elems.length) ∧
     (eN.kind ≠ EKind.image →
        (s.setImage vi).map (fun t => t.elems) = some (s.elems ++ [vi]) ∧
        (s.setImage vi).map (fun t => t.elems.length) = some (s.elems.length + 1))) := by
  obtain ⟨e, es, hs⟩ : ∃ e es, s.elems = e :: es := by
    cases h : s.elems with
    | nil => rw [h] at h0; cases h0
    | cons e es => exact ⟨e, es, rfl⟩
  have he0 : e0 = e := by rw [hs] at h0; cases h0; rfl
  constructor
  · constructor
    · intro hk
      have hset : s.setObject vo = some { s with elems := vo :: es } := by
        simp only [System.setObject, if_pos hvo, hs]
        subst he0
        simp [hk]
      rw [hset]
      constructor
      · simp [hs]
      · simp [hs]
    · intro hk
      have hset : s.setObject vo = some { s with elems := vo :: e :: es } := by
        simp only [System.setObject, if_pos hvo, hs]
        subst he0
        simp [hk]
      rw [hset]
      constructor
      · simp [hs]
      · simp [hs]
  · constructor
    · intro hk
      have hset : s.setImage vi =
          some { s with elems := s.elems.dropLast ++ [vi] } := by
        simp only [System.setImage, if_pos hvi, hN]
        simp [hk]
      rw [hset]
      refine ⟨by simp, ?_⟩
      have h1 : 1 ≤ s.elems.length := by rw [hs]; simp
      have hlen : (s.elems.dropLast ++ [vi]).length = s.elems.length := by
        simp only [List.length_append, List.length_dropLast,
          List.length_singleton]
        omega
      exact congrArg some hlen
    · intro hk
      have hset : s.setImage vi = some { s with elems := s.elems ++ [vi] } := by
        simp only [System.setImage, if_pos hvi, hN]
        simp [hk]
      rw [hset]
      constructor
      · simp
      · simp

/-- Witness for C7 at the concrete train `sampleSys` (head Object, tail
Image), setting a fresh Object at the head and a fresh Image at the
tail. -/
theorem C7_role_setters_witness :
    ((objDefault.kind = EKind.obj →
        (sampleSys.setObject objDefault).map (fun t => t.elems) =
          some (objDefault :: sampleSys.elems.tail) ∧
        (sampleSys.setObject objDefault).map (fun t => t.elems.length) =
          some sampleSys.elems.length) ∧
     (objDefault.kind ≠ EKind.obj →
        (sampleSys.setObject objDefault).map (fun t => t.elems) =
          some (objDefault :: sampleSys.elems) ∧
        (sampleSys.setObject objDefault).map (fun t => t.elems.length) =
          some (sampleSys.elems.length + 1))) ∧
    ((imgDefault.kind = EKind.image →
        (sampleSys.setImage imgDefault).map (fun t => t.elems) =
          some (sampleSys.elems.dropLast ++ [imgDefault]) ∧
        (sampleSys.setImage imgDefault).map (fun t => t.elems.length) =
          some sampleSys.elems.length) ∧
     (imgDefault.kind ≠ EKind.image →
        (sampleSys.setImage imgDefault).map (fun t => t.elems) =
          some (sampleSys.elems ++ [imgDefault]) ∧
        (sampleSys.setImage imgDefault).map (fun t => t.elems.length) =
          some (sampleSys.elems.length + 1))) :=
  C7_role_setters sampleSys objDefault imgDefault objDefault imgDefault
    rfl rfl rfl rfl

/-! ### Surface outline extraction -/

/-- One produced outline: an open curve for markers and unclosed
transparent surfaces, a closed polygon for a solid block. -/
inductive Curve where
  | openCurve : List (ℚ × ℚ) → Curve
  | closedCurve : List (ℚ × ℚ) → Curve
  deriving DecidableEq

def Curve.isOpen : Curve → Bool
  | Curve.openCurve _ => true
  | Curve.closedCurve _ => false

/-- The closed polygon synthesized by `surfaces_cut` from a pending solid
outline and the current outline: pending, upper corner, reversed current,
lower corner, back to pending's first point.  The corner on each end is
chosen by comparing the two outlines' end abscissae. -/
def closePoly (pxz xz : List (ℚ × ℚ)) : List (ℚ × ℚ) :=
  let p0 := pxz.headD (0, 0)
  let pl := pxz.getLastD (0, 0)
  let x0 := xz.headD (0, 0)
  let xl := xz.getLastD (0, 0)
  let cl := if x0.1 < p0.1 then (x0.1, p0.2) else (p0.1, x0.2)
  let cu := if xl.1 > pl.1 then (xl.1, pl.2) else (pl.1, xl.2)
  pxz ++ [cu] ++ xz.reverse ++ [cl] ++ [p0]

/-- The generator loop of `System.surfaces_cut(axis, points)`: running
axial offset `z0`, pending unclosed solid outline. -/
def surfacesCutGo (axis pts : ℕ) : ℚ → Option (List (ℚ × ℚ)) → List Element → List Curve
  | _, _, [] => []
  | z0, pending, e :: es =>
    let z1 := z0 + e.distance
    let xz : List (ℚ × ℚ) := (e.core.cutXZ axis pts).map fun p => (p.1, p.2 + z1)
    match e.matGet with
    | none => Curve.openCurve xz :: surfacesCutGo axis pts z1 pending es
    | some m =>
      let emitted : List Curve :=
        match pending with
        | some pxz => [Curve.closedCurve (closePoly pxz xz)]
        | none => if m.solid then [] else [Curve.openCurve xz]
      emitted ++ surfacesCutGo axis pts z1 (if m.solid then some xz else none) es

/-- `System.surfaces_cut(axis, points)`, collected into a list. -/
def System.surfacesCut (s : System) (axis pts : ℕ) : List Curve :=
  surfacesCutGo axis pts 0 none s.elems

/-- On a train whose elements all lack a material (`getattr(e, "material",
None)` is `None`), every iteration takes the marker branch: one open curve
per element and the pending outline never forms. -/
theorem surfacesCutGo_all_markers (axis pts : ℕ) :
    ∀ (t : List Element) (z0 : ℚ) (pending : Option (List (ℚ × ℚ))),
      (∀ e ∈ t, e.matGet = none) →
      (surfacesCutGo axis pts z0 pending t).length = t.length ∧
      ∀ c ∈ surfacesCutGo axis pts z0 pending t, c.isOpen = true := by
  intro t
  induction t with
  | nil => intro z0 pending _; exact ⟨rfl, by intro c hc; cases hc⟩
  | cons e es ih =>
    intro z0 pending hall
    have he : e.matGet = none := hall e (List.mem_cons_self e es)
    have hes : ∀ x ∈ es, x.matGet = none := fun x hx => hall x (List.mem_cons_of_mem e hx)
    have ihz := ih (z0 + e.distance) pending hes
    constructor
    · simp only [surfacesCutGo, he, List.length_cons]
      exact congrArg Nat.succ ihz.1
    · intro c hc
      simp only [surfacesCutGo, he, List.mem_cons] at hc
      rcases hc with rfl | hc
      · rfl
      · exact ihz.2 c hc

/-- Claim C9: on a 3-element Object/Aperture/Image train with no
material-bearing surfaces, `surfaces_cut` yields exactly 3 curves, all
open (no closed polygon). -/
theorem C9_markers_three_open_curves (s : System) (axis pts : ℕ)
    (hk : s.elems.map Element.kind = [EKind.obj, EKind.aperture, EKind.image])
    (hm : ∀ e ∈ s.elems, e.matGet = none) :
    (s.surfacesCut axis pts).length = 3 ∧
    ∀ c ∈ s.surfacesCut axis pts, c.isOpen = true := by
  have hlen : s.elems.length = 3 := by
    have := congrArg List.length hk
    simpa using this
  have h := surfacesCutGo_all_markers axis pts s.elems 0 none hm
  exact ⟨by rw [System.surfacesCut, h.1, hlen], h.2⟩

/-- Witness for C9 at the concrete default Object/Aperture/Image train. -/
theorem C9_markers_three_open_curves_witness :
    (sampleSys.surfacesCut 1 31).length = 3 ∧
    ∀ c ∈ sampleSys.surfacesCut 1 31, c.isOpen = true :=
  C9_markers_three_open_curves sampleSys 1 31 rfl
    (by
      intro e he
      simp only [sampleSys, defaultTriple, List.mem_cons, List.not_mem_nil, or_false] at he
      rcases he with rfl | rfl | rfl <;> rfl)

/-! ### Resize-convex -/

/-- Overwrite an element's radius, the only mutation `resize_convex`
performs. -/
def setRadius (e : Element) (r : ℚ) : Element :=
  { e with core := { e.core with radius := r } }

/-- First radius update of the `resize_convex` body: when the current
curvature is negative, grow the current element's radius to at least the
pending element's radius (`el.radius = max(el.radius, pending.radius)`).
`i` is the current position, `j` the pending position, `el` the current
element as read at the top of the iteration. -/
def rcUpd1 (l : List Element) (i j : ℕ) (el : Element) (c : ℚ) : List Element :=
  if c < 0 then
    match l.get? j with
    | some p => l.set i (setRadius el (max el.core.radius p.core.radius))
    | none => l
  else l

/-- Second radius update: when the pending curvature `c0` is positive, grow
the pending element's radius to at least the current element's (already
updated) radius (`pending.radius = max(pending.radius, el.radius)`). -/
def rcUpd2 (l : List Element) (i j : ℕ) (c0 : ℚ) : List Element :=
  if 0 < c0 then
    match l.get? j, l.get? i with
    | some p, some el2 => l.set j (setRadius p (max p.core.radius el2.core.radius))
    | _, _ => l
  else l

/-- The loop of `System.resize_convex` over positions `i, i+1, ...` (one
fuel unit per iteration): skip elements without a material attribute;
otherwise interact with the pending solid surface, then the current element
becomes pending exactly when its material is solid. -/
def rcLoop : ℕ → List Element → ℕ → Option (ℕ × ℚ) → List Element
  | 0, l, _, _ => l
  | fuel + 1, l, i, pend =>
    match l.get? i with
    | none => l
    | some el =>
      if el.hasMat then
        match pend with
        | some (j, c0) =>
          rcLoop fuel (rcUpd2 (rcUpd1 l i j el el.core.curvature) i j c0) (i + 1)
            (if el.solidB then some (i, el.core.curvature) else none)
        | none =>
          rcLoop fuel l (i + 1)
            (if el.solidB then some (i, el.core.curvature) else none)
      else rcLoop fuel l (i + 1) pend

/-- `System.resize_convex`: iterate over the interior slice `self[1:-1]`,
i.e. positions `1 .. len-2`. -/
def System.resizeConvex (s : System) : System :=
  { s with elems := rcLoop (s.elems.length - 2) s.elems 1 none }

/-- `System.fix_sizes`: delegates to `resize_convex`. -/
def System.fixSizes (s : System) : System := s.resizeConvex

/-- Pointwise effect `resize_convex` may have on one element: every
attribute is preserved except the radius, which may only grow. -/
def ElemGrow (e e' : Element) : Prop :=
  e'.kind = e.kind ∧ e'.distance = e.distance ∧ e'.hasMat = e.hasMat ∧
  e'.material = e.material ∧ e'.finite = e.finite ∧
  e'.core.curvature = e.core.curvature ∧ e'.core.refr = e.core.refr ∧
  e'.core.pmat = e.core.pmat ∧ e'.core.cutXZ = e.core.cutXZ ∧
  e.core.radius ≤ e'.core.radius

/-- Elementwise growth, lifted to the element lists of two trains. -/
def ListGrow (l l' : List Element) : Prop :=
  l'.length = l.length ∧
  ∀ (i : ℕ) (h : i < l.length) (h' : i < l'.length),
    ElemGrow (l.get ⟨i, h⟩) (l'.get ⟨i, h'⟩)

theorem elemGrow_refl (e : Element) : ElemGrow e e :=
  ⟨rfl, rfl, rfl, rfl, rfl, rfl, rfl, rfl, rfl, le_refl _⟩

theorem elemGrow_trans {e1 e2 e3 : Element} (h12 : ElemGrow e1 e2)
    (h23 : ElemGrow e2 e3) : ElemGrow e1 e3 := by
  obtain ⟨a1, a2, a3, a4, a5, a6, a7, a8, a9, a10⟩ := h12
  obtain ⟨b1, b2, b3, b4, b5, b6, b7, b8, b9, b10⟩ := h23
  exact ⟨b1.trans a1, b2.trans a2, b3.trans a3, b4.trans a4, b5.trans a5,
    b6.trans a6, b7.trans a7, b8.trans a8, b9.trans a9, a10.trans b10⟩

theorem listGrow_refl (l : List Element) : ListGrow l l :=
  ⟨rfl, fun _ _ _ => elemGrow_refl _⟩

theorem listGrow_trans {l1 l2 l3 : List Element} (h12 : ListGrow l1 l2)
    (h23 : ListGrow l2 l3) : ListGrow l1 l3 := by
  obtain ⟨hl12, hg12⟩ := h12
  obtain ⟨hl23, hg23⟩ := h23
  refine ⟨hl23.trans hl12, fun i h h' => ?_⟩
  have h2 : i < l2.length := by omega
  exact elemGrow_trans (hg12 i h h2) (hg23 i h2 h')

/-- Setting position `i` to its current element with a radius grown by
`max` is a growth step. -/
theorem listGrow_set_radius (l : List Element) (i : ℕ) (el : Element) (r : ℚ)
    (hget : l.get? i = some el) (hr : el.core.radius ≤ r) :
    ListGrow l (l.set i (setRadius el r)) := by
  refine ⟨by simp, fun k h h' => ?_⟩
  have hi : i < l.length := by
    by_contra hc
    rw [List.get?_eq_none.mpr (by omega)] at hget
    cases hget
  simp only [List.get_eq_getElem]
  by_cases hk : i = k
  · subst hk
    have hel : l[i] = el := by
      have := List.get?_eq_get h
      rw [hget, List.get_eq_getElem] at this
      exact (Option.some.inj this).symm
    rw [List.getElem_set_self h', hel]
    exact ⟨rfl, rfl, rfl, rfl, rfl, rfl, rfl, rfl, rfl, hr⟩
  · rw [List.getElem_set_ne hk h']
    exact elemGrow_refl _

theorem listGrow_rcUpd1 (l : List Element) (i j : ℕ) (el : Element) (c : ℚ)
    (hget : l.get? i = some el) : ListGrow l (rcUpd1 l i j el c) := by
  unfold rcUpd1
  split
  · cases hj : l.get? j with
    | none => exact listGrow_refl l
    | some p => exact listGrow_set_radius l i el _ hget (le_max_left _ _)
  · exact listGrow_refl l

theorem listGrow_rcUpd2 (l : List Element) (i j : ℕ) (c0 : ℚ) :
    ListGrow l (rcUpd2 l i j c0) := by
  unfold rcUpd2
  split
  · cases hj : l.get? j with
    | none => exact listGrow_refl l
    | some p =>
      cases hi : l.get? i with
      | none => exact listGrow_refl l
      | some el2 => exact listGrow_set_radius l j p _ hj (le_max_left _ _)
  · exact listGrow_refl l

/-- Each run of the `resize_convex` loop only ever grows radii, preserving
every other element attribute and the length. -/
theorem listGrow_rcLoop :
    ∀ (fuel : ℕ) (l : List Element) (i : ℕ) (pend : Option (ℕ × ℚ)),
      ListGrow l (rcLoop fuel l i pend) := by
  intro fuel
  induction fuel with
  | zero => intro l i pend; exact listGrow_refl l
  | succ n ih =>
    intro l i pend
    show ListGrow l (rcLoop (n + 1) l i pend)
    unfold rcLoop
    cases hget : l.get? i with
    | none => exact listGrow_refl l
    | some el =>
      by_cases hm : el.hasMat
      · simp only [hm, if_true]
        cases pend with
        | none => exact ih l (i + 1) _
        | some jc =>
          obtain ⟨j, c0⟩ := jc
          have g1 : ListGrow l (rcUpd1 l i j el el.core.curvature) :=
            listGrow_rcUpd1 l i j el _ hget
          have g2 : ListGrow (rcUpd1 l i j el el.core.curvature)
              (rcUpd2 (rcUpd1 l i j el el.core.curvature) i j c0) :=
            listGrow_rcUpd2 _ i j c0
          exact listGrow_trans (listGrow_trans g1 g2) (ih _ (i + 1) _)
      · simp only [hm, if_false]
        exact ih l (i + 1) pend

/-- Claim C6: `fix_sizes()` (i.e. `resize_convex()`) never decreases any
element's radius; each element's radius after the call is at least its
radius before, and no other attribute changes. -/
theorem C6_fix_sizes_radius_monotone (s : System) :
    ListGrow s.elems (s.fixSizes).elems :=
  listGrow_rcLoop (s.elems.length - 2) s.elems 1 none

/-- A solid surface element for the resize counterexample. -/
def surfEl (c r : ℚ) (solid : Bool) (t : ℕ) : Element :=
  { kind := EKind.surface, distance := 0, hasMat := true,
    material := some { solid := solid, tag := t }, finite := true,
    core := { curvature := c, radius := r, refr := fun _ => 1,
              pmat := fun n _ => (n, 1), cutXZ := fun _ _ => [] } }

/-- Train on which `resize_convex` is not idempotent: two consecutive
solid convex surfaces followed by a larger concave closing surface.  The
first pass enlarges the middle surface from the third, but the first
surface is only enlarged from the middle one on the *second* pass. -/
def cexRC : System :=
  { elems := [objDefault, surfEl 1 1 true 0, surfEl 1 1 true 0,
              surfEl (-1) 5 false 1, imgDefault],
    description := "", scale := 1 / 1000, wavelengths := [1] }

/-- Counterexample to claim C3: on `cexRC` the second `fix_sizes()` call
changes a radius again (the first interior surface grows from 1 to 5 only
on the second pass), so `fix_sizes` is not idempotent. -/
theorem C3_fix_sizes_not_idempotent_cex :
    ((cexRC.fixSizes).fixSizes).elems.map Element.radius ≠
      (cexRC.fixSizes).elems.map Element.radius := by
  decide

/-- Claim C3 amended: a second `fix_sizes()` call changes no element
attribute other than the radius, and radii never decrease (they may grow
further, as convex sizes propagate backward one solid pair per pass). -/
theorem C3_fix_sizes_second_call_grow_only (s : System) :
    ListGrow (s.fixSizes).elems ((s.fixSizes).fixSizes).elems :=
  listGrow_rcLoop ((s.fixSizes).elems.length - 2) (s.fixSizes).elems 1 none

/-! ### Claim C1: splitting the paraxial chain -/

theorem Mat2.mul_def (m n : Mat2) : m * n = Mat2.mul m n := rfl

theorem Mat2.mul_assoc3 (x y z : Mat2) : x * y * z = x * (y * z) := by
  show Mat2.mul (Mat2.mul x y) z = Mat2.mul x (Mat2.mul y z)
  cases x; cases y; cases z
  simp only [Mat2.mul, Mat2.mk.injEq]
  refine ⟨by ring, by ring, by ring, by ring⟩

theorem Mat2.one_mulL (x : Mat2) : (1 : Mat2) * x = x := by
  show Mat2.mul Mat2.id x = x
  simp only [Mat2.mul, Mat2.id]
  cases x
  simp only [Mat2.mk.injEq]
  refine ⟨by ring, by ring, by ring, by ring⟩

theorem Mat2.mul_oneR (x : Mat2) : x * (1 : Mat2) = x := by
  show Mat2.mul x Mat2.id = x
  simp only [Mat2.mul, Mat2.id]
  cases x
  simp only [Mat2.mk.injEq]
  refine ⟨by ring, by ring, by ring, by ring⟩

/-- The refractive index carried out of a run of the `paraxial_matrices`
loop (the value of `n` after consuming the list). -/
def chainCarry (l : ℚ) : ℚ → List Element → ℚ
  | n, [] => n
  | n, e :: es => chainCarry l (e.core.pmat n l).1 es

theorem chain_append (l : ℚ) (xs ys : List Element) :
    ∀ n0 : ℚ, chain l n0 (xs ++ ys) =
      chain l n0 xs ++ chain l (chainCarry l n0 xs) ys := by
  induction xs with
  | nil => intro n0; rfl
  | cons e es ih =>
    intro n0
    simp only [List.cons_append, chain, chainCarry, List.append_eq]
    rw [ih]

theorem prodMat_foldl (cs : List (ℚ × Mat2)) :
    ∀ a : Mat2, cs.foldl (fun m p => p.2 * m) a = prodMat cs * a := by
  induction cs with
  | nil => intro a; exact (Mat2.one_mulL a).symm
  | cons c cs ih =>
    intro a
    simp only [List.foldl_cons, prodMat]
    rw [ih, ih (c.2 * 1), Mat2.mul_assoc3]
    rw [Mat2.mul_assoc3, Mat2.one_mulL]

theorem prodMat_append (xs ys : List (ℚ × Mat2)) :
    prodMat (xs ++ ys) = prodMat ys * prodMat xs := by
  show (xs ++ ys).foldl (fun m p => p.2 * m) 1 = prodMat ys * prodMat xs
  rw [List.foldl_append]
  exact prodMat_foldl ys (xs.foldl (fun m p => p.2 * m) 1)

/-- Under index coherence (each element's `paraxial_matrix` reports the
same outgoing index as its `refractive_index` query), the index carried out
of a non-empty prefix is the prefix's last element's refractive index. -/
theorem chainCarry_take (l : ℚ) :
    ∀ (t : List Element) (m : ℕ) (n0 : ℚ) (em : Element),
      t.get? (m - 1) = some em → 1 ≤ m →
      (∀ e ∈ t, ∀ n, (e.core.pmat n l).1 = e.core.refr l) →
      chainCarry l n0 (t.take m) = em.core.refr l := by
  intro t
  induction t with
  | nil => intro m n0 em hget _ _; cases hget
  | cons e ts ih =>
    intro m n0 em hget hm hcoh
    match m, hm with
    | 1, _ =>
      simp only [List.get?] at hget
      cases hget
      simp only [List.take, chainCarry]
      exact hcoh e (List.mem_cons_self e ts) n0
    | m' + 2, _ =>
      have hget' : ts.get? (m' + 1 - 1) = some em := by
        simpa using hget
      have := ih (m' + 1) ((e.core.pmat n0 l).1) em hget' (by omega)
        (fun x hx => hcoh x (List.mem_cons_of_mem e hx))
      simpa [List.take, chainCarry] using this

/-- Counterexample elements: a surface whose paraxial matrix is the given
constant matrix in unit-index media. -/
def pmEl (M : Mat2) : Element :=
  { kind := EKind.surface, distance := 0, hasMat := true, material := none,
    finite := true,
    core := { curvature := 0, radius := 0, refr := fun _ => 1,
              pmat := fun _ _ => (1, M), cutXZ := fun _ _ => [] } }

def matA : Mat2 := ⟨1, 1, 0, 1⟩

def matB : Mat2 := ⟨1, 0, 1, 1⟩

/-- A three-element train whose two interior matrices do not commute. -/
def C1Sys : System :=
  { elems := [pmEl 1, pmEl matA, pmEl matB],
    description := "", scale := 1 / 1000, wavelengths := [1] }

/-- Counterexample to claim C1: on `C1Sys` with split point `k = 2` and
`n = 3` elements, `paraxial_matrix(l, 1, 2) . paraxial_matrix(l, 2, 3)` in
the claimed left/right order differs from `paraxial_matrix(l, 1, 3)`: the
fold applies later matrices on the left, so the split factors compose in
the opposite order. -/
theorem C1_paraxial_split_cex :
    mulOpt (C1Sys.paraxialMatrix 1 1 (some 2)) (C1Sys.paraxialMatrix 1 2 (some 3)) ≠
      C1Sys.paraxialMatrix 1 1 (some 3) := by
  have h12 : C1Sys.paraxialMatrix 1 1 (some 2) = some (matA * 1) := rfl
  have h23 : C1Sys.paraxialMatrix 1 2 (some 3) = some (matB * 1) := rfl
  have h13 : C1Sys.paraxialMatrix 1 1 (some 3) = some (matB * (matA * 1)) := rfl
  rw [h12, h23, h13, Mat2.mul_oneR, Mat2.mul_oneR]
  intro h
  have h' : some (matA * matB) = some (matB * matA) := h
  have h2 := Option.some.inj h'
  have ha := congrArg Mat2.a h2
  simp only [Mat2.mul_def, Mat2.mul, matA, matB] at ha
  norm_num at ha

/-- Claim C1 amended: with the factors in the opposite order —
`paraxial_matrix(l, k, n) . paraxial_matrix(l, 1, k)` — the split product
equals `paraxial_matrix(l, 1, n)` for every valid split `1 < k < n`
(`n` the element count), provided each element's `paraxial_matrix` reports
the same outgoing index as its `refractive_index` query. -/
theorem C1_paraxial_split_amended (s : System) (l : ℚ) (k : ℕ)
    (hk1 : 1 < k) (hk2 : k < s.elems.length)
    (hcoh : ∀ e ∈ s.elems, ∀ n, (e.core.pmat n l).1 = e.core.refr l) :
    mulOpt (s.paraxialMatrix l k (some s.elems.length))
        (s.paraxialMatrix l 1 (some k)) =
      s.paraxialMatrix l 1 (some s.elems.length) := by
  have hlen : 0 < s.elems.length := by omega
  obtain ⟨e0, hget0⟩ : ∃ e0, s.elems.get? 0 = some e0 :=
    ⟨s.elems.get ⟨0, hlen⟩, List.get?_eq_get hlen⟩
  have hk1len : k - 1 < s.elems.length := by omega
  obtain ⟨ek1, hgetk⟩ : ∃ ek1, s.elems.get? (k - 1) = some ek1 :=
    ⟨s.elems.get ⟨k - 1, hk1len⟩, List.get?_eq_get hk1len⟩
  have hseed1 : seedElem s 1 = some e0 := by
    simp only [seedElem, if_neg (by omega : (1 : ℕ) ≠ 0)]
    exact hget0
  have hseedk : seedElem s k = some ek1 := by
    simp only [seedElem, if_neg (by omega : k ≠ 0)]
    exact hgetk
  have hkne : k ≠ 0 := by omega
  have hlne : s.elems.length ≠ 0 := by omega
  have hstopk : effStop s (some k) = k := by
    simp [effStop, hkne]
  have hstopn : effStop s (some s.elems.length) = s.elems.length := by
    simp [effStop, hlne]
  have hslice1n : pySlice s.elems 1 s.elems.length = s.elems.drop 1 := by
    simp [pySlice, List.take_length]
  have hslicekn : pySlice s.elems k s.elems.length = s.elems.drop k := by
    simp [pySlice, List.take_length]
  have htk : 1 ≤ (s.elems.take k).length := by
    simp only [List.length_take]
    omega
  have hsplit : s.elems.drop 1 = pySlice s.elems 1 k ++ s.elems.drop k := by
    conv_lhs => rw [← List.take_append_drop k s.elems]
    rw [List.drop_append_of_le_length htk]
    rfl
  have hcarry : chainCarry l (e0.core.refr l) (pySlice s.elems 1 k) =
      ek1.core.refr l := by
    have htake : pySlice s.elems 1 k = (s.elems.drop 1).take (k - 1) := by
      simp [pySlice, List.drop_take]
    rw [htake]
    refine chainCarry_take l (s.elems.drop 1) (k - 1) (e0.core.refr l) ek1 ?_
      (by omega) ?_
    · rw [List.get?_drop]
      have : 1 + (k - 1 - 1) = k - 1 := by omega
      rw [this]
      exact hgetk
    · intro e he n
      exact hcoh e (List.mem_of_mem_drop he) n
  simp only [System.paraxialMatrix, System.paraxialMatrices, hseed1, hseedk,
    hstopk, hstopn, hslice1n, hslicekn, Option.map_map, Option.map_some,
    mulOpt, Option.bind_some, Function.comp]
  refine congrArg some ?_
  simp only [Function.comp_apply]
  rw [hsplit, chain_append, hcarry, prodMat_append]

/-- Witness for the amended C1 at `C1Sys`, wavelength 1, split `k = 2`. -/
theorem C1_paraxial_split_amended_witness :
    (1 < 2) ∧ (2 < C1Sys.elems.length) ∧
    mulOpt (C1Sys.paraxialMatrix 1 2 (some C1Sys.elems.length))
        (C1Sys.paraxialMatrix 1 1 (some 2)) =
      C1Sys.paraxialMatrix 1 1 (some C1Sys.elems.length) :=
  ⟨by norm_num, by decide,
    C1_paraxial_split_amended C1Sys 1 2 (by norm_num) (by decide)
      (by
        intro e he n
        simp only [C1Sys, List.mem_cons, List.not_mem_nil, or_false] at he
        rcases he with rfl | rfl | rfl <;> rfl)⟩

/-! ### Reverse -/

/-- Modelled from the spec: the element-local `reverse()` mutator flips
orientation-dependent element state (e.g. the curvature sign convention);
`rayopt.elements` is not among the given sources, so the action on the
orientation-carrying core is a parameter.  The train-level passes own
`distance` and the material association, which element reversal leaves
alone. -/
def elemRev (rc : Core → Core) (e : Element) : Element :=
  { e with core := rc e.core }

/-- Distance shift of `System.reverse`: iterate forward carrying `d = 0`,
swapping the carry with each element's `distance`. -/
def shiftD : ℚ → List Element → List Element
  | _, [] => []
  | d, e :: es => { e with distance := d } :: shiftD e.distance es

/-- The carry left after the distance loop: the last element's old
distance (or the initial carry on an empty list). -/
def dCarry : ℚ → List Element → ℚ
  | d, [] => d
  | _, e :: es => dCarry e.distance es

/-- Material shift of `System.reverse`, in iteration order: swap the carry
with the `material` of each element that has the attribute
(`hasattr(e, "material")`).  The source iterates `self[::-1]`; that
reversal is applied by the caller. -/
def matFwd : Option Material → List Element → List Element
  | _, [] => []
  | m, e :: es =>
    match e.hasMat with
    | true => { e with material := m } :: matFwd e.material es
    | false => e :: matFwd m es

/-- The carry left after the material loop: the last material-bearing
element's old material (or the initial carry). -/
def matCarry : Option Material → List Element → Option Material
  | m, [] => m
  | m, e :: es =>
    match e.hasMat with
    | true => matCarry e.material es
    | false => matCarry m es

/-- The element-list effect of `System.reverse`: reverse the order, apply
each element's own `reverse()`, shift distances forward, then shift
materials backward (the loop runs over the reversed list). -/
def revElems (rc : Core → Core) (l : List Element) : List Element :=
  (matFwd none (shiftD 0 ((l.reverse).map (elemRev rc))).reverse).reverse

/-- `System.reverse()`, with the delegated element-local reverse as a
parameter. -/
def System.revOp (rc : Core → Core) (s : System) : System :=
  { s with elems := revElems rc s.elems }

theorem shiftD_append_one :
    ∀ (xs : List Element) (d : ℚ) (a : Element),
      shiftD d (xs ++ [a]) = shiftD d xs ++ [{ a with distance := dCarry d xs }] := by
  intro xs
  induction xs with
  | nil => intro d a; rfl
  | cons e es ih =>
    intro d a
    simp only [List.cons_append, shiftD, dCarry, List.append_eq]
    rw [ih]

theorem dCarry_append_one :
    ∀ (xs : List Element) (d : ℚ) (a : Element),
      dCarry d (xs ++ [a]) = a.distance := by
  intro xs
  induction xs with
  | nil => intro d a; rfl
  | cons e es ih =>
    intro d a
    simp only [List.cons_append, dCarry]
    exact ih e.distance a

theorem matFwd_append_one :
    ∀ (xs : List Element) (m : Option Material) (a : Element),
      matFwd m (xs ++ [a]) =
        matFwd m xs ++
          [match a.hasMat with
           | true => { a with material := matCarry m xs }
           | false => a] := by
  intro xs
  induction xs with
  | nil =>
    intro m a
    obtain ⟨ka, da, hMa, mata, fina, coa⟩ := a
    cases hMa <;> rfl
  | cons e es ih =>
    intro m a
    obtain ⟨k, d, hM, mat, fin, co⟩ := e
    cases hM <;>
      simp only [List.cons_append, matFwd, matCarry, List.append_eq] <;>
      rw [ih]

theorem matCarry_append_one :
    ∀ (xs : List Element) (m : Option Material) (a : Element),
      matCarry m (xs ++ [a]) =
        match a.hasMat with
        | true => a.material
        | false => matCarry m xs := by
  intro xs
  induction xs with
  | nil =>
    intro m a
    obtain ⟨ka, da, hMa, mata, fina, coa⟩ := a
    cases hMa <;> rfl
  | cons e es ih =>
    intro m a
    obtain ⟨k, d, hM, mat, fin, co⟩ := e
    cases hM <;>
      simp only [List.cons_append, matCarry, List.append_eq] <;>
      rw [ih]

theorem dCarry_shiftD_rev (es : List Element) (x : ℚ) :
    dCarry (dCarry x es) ((shiftD x es).reverse) = x := by
  cases es with
  | nil => rfl
  | cons e es =>
    simp only [shiftD, dCarry, List.reverse_cons, dCarry_append_one]

theorem matCarry_matFwd_rev :
    ∀ (es : List Element) (x : Option Material),
      matCarry (matCarry x es) ((matFwd x es).reverse) = x := by
  intro es
  induction es with
  | nil => intro x; rfl
  | cons e es ih =>
    intro x
    obtain ⟨k, d, hM, mat, fin, co⟩ := e
    cases hM
    · simp only [matFwd, matCarry, List.reverse_cons, matCarry_append_one]
      exact ih x
    · simp only [matFwd, matCarry, List.reverse_cons, matCarry_append_one]

/-- Undoing the distance shift: shifting the reversed shifted list with
the carried-out distance restores the reversed original. -/
theorem shiftD_rev_inv :
    ∀ (l : List Element) (c : ℚ),
      shiftD (dCarry c l) ((shiftD c l).reverse) = l.reverse := by
  intro l
  induction l with
  | nil => intro c; rfl
  | cons e es ih =>
    intro c
    simp only [shiftD, dCarry, List.reverse_cons, shiftD_append_one,
      dCarry_shiftD_rev]
    rw [ih e.distance]

/-- Undoing the material shift: shifting the reversed shifted list with
the carried-out material restores the reversed original. -/
theorem matFwd_rev_inv :
    ∀ (l : List Element) (m : Option Material),
      matFwd (matCarry m l) ((matFwd m l).reverse) = l.reverse := by
  intro l
  induction l with
  | nil => intro m; rfl
  | cons e es ih =>
    intro m
    obtain ⟨k, d, hM, mat, fin, co⟩ := e
    cases hM
    · simp only [matFwd, matCarry, List.reverse_cons, matFwd_append_one]
      rw [ih m]
    · simp only [matFwd, matCarry, List.reverse_cons, matFwd_append_one,
        matCarry_matFwd_rev]
      rw [ih mat]

/-- The element-list effect of `System.reverse` without the delegated
element-local reverse (steps 1, 3 and 4 of the method). -/
def revElemsNoRc (l : List Element) : List Element :=
  (matFwd none (shiftD 0 l.reverse).reverse).reverse

theorem shiftD_map (rc : Core → Core) :
    ∀ (l : List Element) (c : ℚ),
      shiftD c (l.map (elemRev rc)) = (shiftD c l).map (elemRev rc) := by
  intro l
  induction l with
  | nil => intro c; rfl
  | cons e es ih =>
    intro c
    obtain ⟨k, d, hM, mat, fin, co⟩ := e
    simp only [List.map_cons, shiftD, elemRev]
    rw [ih]

theorem matFwd_map (rc : Core → Core) :
    ∀ (l : List Element) (m : Option Material),
      matFwd m (l.map (elemRev rc)) = (matFwd m l).map (elemRev rc) := by
  intro l
  induction l with
  | nil => intro m; rfl
  | cons e es ih =>
    intro m
    obtain ⟨k, d, hM, mat, fin, co⟩ := e
    cases hM <;> simp only [List.map_cons, matFwd, elemRev] <;> rw [ih]

theorem shiftD_matFwd :
    ∀ (l : List Element) (c : ℚ) (m : Option Material),
      shiftD c (matFwd m l) = matFwd m (shiftD c l) := by
  intro l
  induction l with
  | nil => intro c m; rfl
  | cons e es ih =>
    intro c m
    obtain ⟨k, d, hM, mat, fin, co⟩ := e
    cases hM <;> simp only [matFwd, shiftD] <;> rw [ih]

theorem elemRev_invol (rc : Core → Core) (hrc : ∀ x, rc (rc x) = x)
    (e : Element) : elemRev rc (elemRev rc e) = e := by
  obtain ⟨k, d, hM, mat, fin, co⟩ := e
  simp only [elemRev]
  rw [hrc]

theorem map_map_elemRev (rc : Core → Core) (hrc : ∀ x, rc (rc x) = x)
    (l : List Element) : (l.map (elemRev rc)).map (elemRev rc) = l := by
  rw [List.map_map]
  have h : ∀ e ∈ l, (elemRev rc ∘ elemRev rc) e = e := fun e _ =>
    elemRev_invol rc hrc e
  rw [List.map_congr_left h, List.map_id']

theorem dCarry_rev_zero (l : List Element)
    (hd : ∀ e, l.head? = some e → e.distance = 0) :
    dCarry 0 l.reverse = 0 := by
  cases l with
  | nil => rfl
  | cons e es =>
    simp only [List.reverse_cons, dCarry_append_one]
    exact hd e rfl

theorem revElems_pull (rc : Core → Core) (l : List Element) :
    revElems rc l = (revElemsNoRc l).map (elemRev rc) := by
  unfold revElems revElemsNoRc
  rw [List.map_reverse, ← List.map_reverse, shiftD_map, ← List.map_reverse,
    matFwd_map, ← List.map_reverse]

theorem revElemsNoRc_map (rc : Core → Core) (l : List Element) :
    revElemsNoRc (l.map (elemRev rc)) = (revElemsNoRc l).map (elemRev rc) := by
  unfold revElemsNoRc
  rw [← List.map_reverse, shiftD_map, ← List.map_reverse, matFwd_map,
    ← List.map_reverse]

/-- The core reversal passes are involutive on trains whose head distance
is zero and whose last material-bearing element carries no material. -/
theorem revElemsNoRc_invol (l : List Element)
    (hd : ∀ e, l.head? = some e → e.distance = 0)
    (hm : matCarry none l = none) :
    revElemsNoRc (revElemsNoRc l) = l := by
  unfold revElemsNoRc
  rw [List.reverse_reverse, shiftD_matFwd]
  have key : shiftD 0 ((shiftD 0 l.reverse).reverse) = l := by
    have h := shiftD_rev_inv l.reverse 0
    rw [dCarry_rev_zero l hd] at h
    rw [h, List.reverse_reverse]
  rw [key]
  have h2 := matFwd_rev_inv l none
  rw [hm] at h2
  rw [h2, List.reverse_reverse]

theorem revElems_invol (rc : Core → Core) (hrc : ∀ x, rc (rc x) = x)
    (l : List Element)
    (hd : ∀ e, l.head? = some e → e.distance = 0)
    (hm : matCarry none l = none) :
    revElems rc (revElems rc l) = l := by
  rw [revElems_pull rc l]
  rw [revElems_pull rc ((revElemsNoRc l).map (elemRev rc))]
  rw [revElemsNoRc_map rc (revElemsNoRc l)]
  rw [map_map_elemRev rc hrc]
  exact revElemsNoRc_invol l hd hm

/-- Claim C2 amended: `reverse(); reverse()` restores the train exactly —
element order, distances, materials and curvatures — given that the
element-local reverse is involutive (acting on the orientation core only),
that the head element's distance is 0 (the spec calls it conventionally
unused/zero), and that the last material-bearing element's material is the
none sentinel (image space carries no material).  Without the last two
conditions the head distance is zeroed and the last material is dropped. -/
theorem C2_reverse_round_trip (rc : Core → Core) (s : System)
    (hrc : ∀ x, rc (rc x) = x)
    (hd : ∀ e, s.elems.head? = some e → e.distance = 0)
    (hm : matCarry none s.elems = none) :
    (s.revOp rc).revOp rc = s := by
  obtain ⟨l, de, sc, w⟩ := s
  show System.mk (revElems rc (revElems rc l)) de sc w = System.mk l de sc w
  rw [revElems_invol rc hrc l hd hm]

/-- Train falsifying claim C2 as stated: the head element has a nonzero
distance and carries a material. -/
def cexRev : System :=
  { elems := [{ kind := EKind.surface, distance := 1, hasMat := true,
                material := some { solid := true, tag := 5 }, finite := true,
                core := { curvature := 3, radius := 1, refr := fun _ => 1,
                          pmat := fun n _ => (n, 1), cutXZ := fun _ _ => [] } },
              { imgDefault with distance := 2 }],
    description := "", scale := 1 / 1000, wavelengths := [1] }

/-- Counterexample to claim C2: with the identity (hence involutive)
element-local reverse, two `reverse()` calls on `cexRev` do not restore the
per-element distances and materials — the head distance 1 becomes 0 and
the material is dropped to none. -/
theorem C2_reverse_round_trip_cex :
    (∀ x : Core, (fun c => c) ((fun c => c) x) = x) ∧
    ((cexRev.revOp (fun c => c)).revOp (fun c => c)).elems.map
        (fun e => (e.distance, e.material)) ≠
      cexRev.elems.map (fun e => (e.distance, e.material)) :=
  ⟨fun _ => rfl, by decide⟩

/-- Concrete element-local reverse for the C2 witness: flip the curvature
sign. -/
def rcNeg : Core → Core := fun c => { c with curvature := -c.curvature }

/-- A well-formed witness train: head distance 0, and the only
material-bearing element holds the none material. -/
def wfRev : System :=
  { elems := [objDefault, pmEl matA, { imgDefault with distance := 2 }],
    description := "", scale := 1 / 1000, wavelengths := [1] }

/-- Witness for the amended C2 at `wfRev` with the curvature-flipping
element reverse. -/
theorem C2_reverse_round_trip_witness :
    (∀ x, rcNeg (rcNeg x) = x) ∧
    (∀ e, wfRev.elems.head? = some e → e.distance = 0) ∧
    matCarry none wfRev.elems = none ∧
    (wfRev.revOp rcNeg).revOp rcNeg = wfRev := by
  have h1 : ∀ x, rcNeg (rcNeg x) = x := by
    intro x
    obtain ⟨cu, r, rf, pm, cz⟩ := x
    simp [rcNeg]
  have h2 : ∀ e, wfRev.elems.head? = some e → e.distance = 0 := by
    intro e he
    cases he
    rfl
  have h3 : matCarry none wfRev.elems = none := rfl
  exact ⟨h1, h2, h3, C2_reverse_round_trip rcNeg wfRev h1 h2 h3⟩
